import Mathlib

/-!
# Verification of the CreateWOBJ asset compiler core

Shallow embedding of the CreateWOBJ sources (`Main.cpp`, `VertexFormat.h`,
`common.h`, `ieee754_2008.h`, `vec.h`) in Lean 4, together with theorems
settling the stated properties of the compiler.

Modelling conventions:
* C++ `float`/`double` values that only flow through exact arithmetic
  (comparisons, linear interpolation, componentwise sums and divisions)
  are modelled as `ℚ`; the properties checked here are structural
  (which samples are kept, which slots are written, which tokens are
  emitted) and do not depend on rounding.
* `aiQuaternion::Interpolate` (spherical interpolation) is code of the
  external assimp library, not of this repository; the quaternion track
  compressor is therefore parametrised over an arbitrary interpolation
  function `slerp`.
* The binary output stream is modelled as a list of typed tokens.
-/

namespace CreateWOBJ

/-! ## `common.h` primitives -/

/-- `common.h`: `clamp(e,l,h) = (e > l) ? ((e > h) ? h : e) : l`. -/
def clamp (e l h : ℤ) : ℤ := if e > l then (if e > h then h else e) else l

/-- `common.h`: `interp(a,b,f) = a*(1-f)+b*f` (scalar case). -/
def interpQ (a b f : ℚ) : ℚ := a * (1 - f) + b * f

/-- `common.h`: `uchar_max = uchar(-1) = 255`. -/
def uchar_max : ℕ := 255

/-- `common.h`: `ushort_max = ushort(-1) = 65535`. -/
def ushort_max : ℕ := 65535

/-! ## `vec.h` vectors (components in declaration order `x,y,z[,w]`) -/

/-- `vec.h` `float3` with exact rational components. -/
structure float3 where
  x : ℚ
  y : ℚ
  z : ℚ
deriving DecidableEq, Repr

instance : Inhabited float3 := ⟨⟨0, 0, 0⟩⟩

/-- `vec.h` `float4` with exact rational components. -/
structure float4 where
  x : ℚ
  y : ℚ
  z : ℚ
  w : ℚ
deriving DecidableEq, Repr

instance : Inhabited float4 := ⟨⟨0, 0, 0, 0⟩⟩

/-- `vec.h` `operator[]`: components of a `float4` in order `x,y,z,w`.
Any argument `≥ 3` reads `w` (the C++ operator is only ever called with
`0 ≤ i < 4`). -/
def get4 (v : float4) : ℕ → ℚ
  | 0 => v.x
  | 1 => v.y
  | 2 => v.z
  | _ => v.w

/-- `vec.h` component write through `operator[]`. -/
def set4 (v : float4) : ℕ → ℚ → float4
  | 0, q => { v with x := q }
  | 1, q => { v with y := q }
  | 2, q => { v with z := q }
  | _, q => { v with w := q }

/-- `common.h` `interp` applied to `float3` (componentwise, via the
`vec.h` componentwise `*` and `+`). -/
def interp3 (a b : float3) (f : ℚ) : float3 :=
  ⟨interpQ a.x b.x f, interpQ a.y b.y f, interpQ a.z b.z f⟩

/-- `aiQuaternion` (order `w, x, y, z` as written by `writeQuatArray`). -/
structure Quat where
  w : ℚ
  x : ℚ
  y : ℚ
  z : ℚ
deriving DecidableEq, Repr

instance : Inhabited Quat := ⟨⟨1, 0, 0, 0⟩⟩

/-! ## `VertexFormat.h`: vertex layout and index width -/

/-- `VertexFormat.h` `AttribType` (the get/set function pointers are
determined by the other fields and are not represented; the bit-fields
`offset:6`/`bpa:6` never overflow for the formats built by `loadScene`,
whose stride is at most 52). -/
structure AttribType where
  offset : ℕ
  bpa : ℕ
  numElements : ℕ
  normalized : Bool
deriving DecidableEq, Repr

/-- `VertexFormat.h` `VertexFormat`: attribute list plus bytes-per-vertex. -/
structure VertexFormat where
  attributes : List AttribType
  bpv : ℕ
deriving DecidableEq, Repr

/-- `VertexFormat::addAttribute<TYPE,n_elem,normalized>()`: appends an
attribute at offset `bpv` of size `sizeof(TYPE)*n_elem` and advances the
stride.  `sizeofType` stands for the template parameter's `sizeof`. -/
def VertexFormat.addAttribute (fmt : VertexFormat) (sizeofType n_elem : ℕ)
    (normalized : Bool) : VertexFormat :=
  { attributes := fmt.attributes ++
      [⟨fmt.bpv, sizeofType * n_elem, n_elem, normalized⟩],
    bpv := fmt.bpv + sizeofType * n_elem }

/-- The vertex format built by `loadScene` (`Main.cpp` lines 224–227):
position `float3`, normal `float3`, texcoord `float2` unconditionally,
plus bone-index `float4` and bone-weight `float4` when `nAnim > 0`.
`sizeof(float) = 4`. -/
def loadSceneFormat (nAnim : ℕ) : VertexFormat :=
  let f : VertexFormat := ⟨[], 0⟩
  let f := f.addAttribute 4 3 false
  let f := f.addAttribute 4 3 false
  let f := f.addAttribute 4 2 false
  if nAnim > 0 then (f.addAttribute 4 4 false).addAttribute 4 4 false else f

/-- `IndexFormat::IndexFormat(int vertex_count)`: bytes per index.
`bpi = 1` if `vertex_count < uchar_max (= 255)`, else `2` if
`vertex_count < ushort_max (= 65535)`, else `4`. -/
def IndexFormat_bpi (vertex_count : ℕ) : ℕ :=
  if vertex_count < uchar_max then 1
  else if vertex_count < ushort_max then 2
  else 4

/-! ## `Main.cpp`: keyframe compression (`writeVectorArray` / `writeQuatArray`) -/

/-- `aiVectorKey`: a time plus a 3-vector value. -/
structure VKey where
  time : ℚ
  value : float3
deriving DecidableEq, Repr

instance : Inhabited VKey := ⟨⟨0, default⟩⟩

/-- `aiQuatKey`: a time plus a quaternion value. -/
structure QKey where
  time : ℚ
  value : Quat
deriving DecidableEq, Repr

instance : Inhabited QKey := ⟨⟨0, default⟩⟩

/-- `Main.cpp` `equalsFuzzy(const float3&, const float3&, float)`. -/
def equalsFuzzy3 (a b : float3) (d : ℚ) : Bool :=
  |a.x - b.x| < d && |a.y - b.y| < d && |a.z - b.z| < d

/-- `Main.cpp` `equalsFuzzy(const aiQuaternion&, const aiQuaternion&, float)`. -/
def equalsFuzzyQ (a b : Quat) (d : ℚ) : Bool :=
  |a.x - b.x| < d && |a.y - b.y| < d && |a.z - b.z| < d && |a.w - b.w| < d

/-- The epsilon `0.00001` used by both keyframe compressors. -/
def EPS : ℚ := 1 / 100000

/-- The skip condition of the `writeVectorArray` loop at index `i`
(`Main.cpp` lines 174–178): an interior sample is compared against the
linear interpolation between the *raw* neighbours `keys[i-1]` and
`keys[i+1]`; the final sample is compared against the raw previous
sample `keys[i-1]`.  The condition never consults the list of already
retained indices. -/
def vectorCond (keys : List VKey) (i : ℕ) : Bool :=
  let n := keys.length
  let k := keys.getD i default
  if 0 < i ∧ i < n - 1 then
    let km := keys.getD (i - 1) default
    let kp := keys.getD (i + 1) default
    equalsFuzzy3 (interp3 km.value kp.value ((k.time - km.time) / (kp.time - km.time)))
      k.value EPS
  else if i = n - 1 ∧ 0 < i then
    equalsFuzzy3 (keys.getD (i - 1) default).value k.value EPS
  else false

/-- The `ar` vector of `writeVectorArray` after the first `m` loop
iterations: index `i` is appended unless `vectorCond` skips it. -/
def vectorAr (keys : List VKey) : ℕ → List ℕ
  | 0 => []
  | m + 1 =>
    let ar := vectorAr keys m
    if vectorCond keys m then ar else ar ++ [m]

/-- The retained key indices of `writeVectorArray` (the full loop over
`i = 0 .. count-1`). -/
def vectorIndices (keys : List VKey) : List ℕ :=
  vectorAr keys keys.length

/-- The skip condition of the `writeQuatArray` loop at index `i` given
the retained-index list `ar` (`Main.cpp` lines 188–194): an interior
sample is compared against `Interpolate` between the most recently
*retained* sample `keys[ar[ar.size()-1]]` and the raw next sample
`keys[i+1]`; the final sample is compared against the most recently
retained sample.  `slerp` stands for the external
`aiQuaternion::Interpolate`. -/
def quatCond (slerp : Quat → Quat → ℚ → Quat) (keys : List QKey)
    (ar : List ℕ) (i : ℕ) : Bool :=
  let n := keys.length
  let k := keys.getD i default
  if 0 < i ∧ i < n - 1 then
    let prev := keys.getD (ar.getLastD 0) default
    let kp := keys.getD (i + 1) default
    equalsFuzzyQ
      (slerp prev.value kp.value ((k.time - prev.time) / (kp.time - prev.time)))
      k.value EPS
  else if i = n - 1 ∧ 0 < i then
    equalsFuzzyQ (keys.getD (ar.getLastD 0) default).value k.value EPS
  else false

/-- The `ar` vector of `writeQuatArray` after the first `m` loop
iterations. -/
def quatAr (slerp : Quat → Quat → ℚ → Quat) (keys : List QKey) : ℕ → List ℕ
  | 0 => []
  | m + 1 =>
    let ar := quatAr slerp keys m
    if quatCond slerp keys ar m then ar else ar ++ [m]

/-- The retained key indices of `writeQuatArray`. -/
def quatIndices (slerp : Quat → Quat → ℚ → Quat) (keys : List QKey) : List ℕ :=
  quatAr slerp keys keys.length

/-- Modelled from the spec (refinement comparison for the interior-sample
rule): the spec states that for *every* track kind the interior sample is
compared against interpolation between the most recently accepted
(retained) previous sample and the raw next sample, weighted by the
elapsed-time fraction over that pair.  This is `vectorCond` with the raw
predecessor replaced by the most recently retained sample. -/
def vectorCondSpec (keys : List VKey) (ar : List ℕ) (i : ℕ) : Bool :=
  let n := keys.length
  let k := keys.getD i default
  if 0 < i ∧ i < n - 1 then
    let prev := keys.getD (ar.getLastD 0) default
    let kp := keys.getD (i + 1) default
    equalsFuzzy3
      (interp3 prev.value kp.value ((k.time - prev.time) / (kp.time - prev.time)))
      k.value EPS
  else if i = n - 1 ∧ 0 < i then
    equalsFuzzy3 (keys.getD (i - 1) default).value k.value EPS
  else false

/-- Modelled from the spec: the retained indices under the spec's
accepted-previous interior rule for vector tracks. -/
def vectorArSpec (keys : List VKey) : ℕ → List ℕ
  | 0 => []
  | m + 1 =>
    let ar := vectorArSpec keys m
    if vectorCondSpec keys ar m then ar else ar ++ [m]

/-- Modelled from the spec: retained indices of a vector track under the
spec's interior rule. -/
def vectorIndicesSpec (keys : List VKey) : List ℕ :=
  vectorArSpec keys keys.length

/-- A stateless reformulation of `writeQuatArray`: the accumulator keeps
only the index of the most recently retained sample instead of the whole
retained list.  Used to prove that the quaternion comparison neighbour is
exactly the most recently retained sample. -/
def quatCondLast (slerp : Quat → Quat → ℚ → Quat) (keys : List QKey)
    (last : ℕ) (i : ℕ) : Bool :=
  let n := keys.length
  let k := keys.getD i default
  if 0 < i ∧ i < n - 1 then
    let prev := keys.getD last default
    let kp := keys.getD (i + 1) default
    equalsFuzzyQ
      (slerp prev.value kp.value ((k.time - prev.time) / (kp.time - prev.time)))
      k.value EPS
  else if i = n - 1 ∧ 0 < i then
    equalsFuzzyQ (keys.getD last default).value k.value EPS
  else false

/-- Retained indices plus most-recently-retained index, after `m`
iterations, using only the last retained index as comparison state. -/
def quatSpecA (slerp : Quat → Quat → ℚ → Quat) (keys : List QKey) :
    ℕ → List ℕ × ℕ
  | 0 => ([], 0)
  | m + 1 =>
    let s := quatSpecA slerp keys m
    if quatCondLast slerp keys s.2 m then s else (s.1 ++ [m], m)

/-! ## `Main.cpp`: skeletal binder (`loadMesh` bone-weight assignment) -/

/-- Slot search of `Main.cpp` lines 111–112:
`for(c=0..3) if(wt[c] == 0 || idx[c] == bidx){minidx = c; break}` with the
sentinel `minidx = 4` when no slot matches.  Bone indices are stored in
`float` components, so `bidx` is compared as a rational. -/
def findSlot (idx wt : float4) (bidx : ℚ) : ℕ :=
  if wt.x = 0 ∨ idx.x = bidx then 0
  else if wt.y = 0 ∨ idx.y = bidx then 1
  else if wt.z = 0 ∨ idx.z = bidx then 2
  else if wt.w = 0 ∨ idx.w = bidx then 3
  else 4

/-- One (bone index, weight) contribution applied to a vertex's slot
state `(idx, wt)` (`Main.cpp` lines 107–117): if `findSlot` fails the
contribution is dropped, otherwise the chosen slot is overwritten. -/
def applyWeight (s : float4 × float4) (c : ℚ × ℚ) : float4 × float4 :=
  let m := findSlot s.1 s.2 c.1
  if m ≥ 4 then s else (set4 s.1 m c.1, set4 s.2 m c.2)

/-- The slot state of one vertex after a list of contributions, starting
from the zero-initialised buffers
(`VertexBuffer` is `memset` to zero on allocation). -/
def applyWeights (cs : List (ℚ × ℚ)) : float4 × float4 :=
  cs.foldl applyWeight (⟨0, 0, 0, 0⟩, ⟨0, 0, 0, 0⟩)

/-- Modelled from the spec (refinement comparison for the slot rule):
"find an existing weight slot (0–3) already assigned to this bone id,
else the first unused slot (weight==0); if no slot available, the
contribution is dropped."  The existing-slot search takes priority over
the first-free-slot search. -/
def findSlotSpec (idx wt : float4) (bidx : ℚ) : ℕ :=
  if idx.x = bidx then 0
  else if idx.y = bidx then 1
  else if idx.z = bidx then 2
  else if idx.w = bidx then 3
  else if wt.x = 0 then 0
  else if wt.y = 0 then 1
  else if wt.z = 0 then 2
  else if wt.w = 0 then 3
  else 4

/-- Modelled from the spec: `applyWeight` with the spec's slot rule. -/
def applyWeightSpec (s : float4 × float4) (c : ℚ × ℚ) : float4 × float4 :=
  let m := findSlotSpec s.1 s.2 c.1
  if m ≥ 4 then s else (set4 s.1 m c.1, set4 s.2 m c.2)

/-- Modelled from the spec: slot state after a contribution list under
the spec's slot rule. -/
def applyWeightsSpec (cs : List (ℚ × ℚ)) : float4 × float4 :=
  cs.foldl applyWeightSpec (⟨0, 0, 0, 0⟩, ⟨0, 0, 0, 0⟩)

/-! ## `Main.cpp`: bone table and the per-vertex post pass -/

/-- The bone registry `BoneData::bones` restricted to what the verified
claims consult: the name → id association in insertion order.  (Each
`Bone` also stores an inverse-bind matrix, which none of the claims
examine.)  `nextIndex` is the `int& index` counter threaded through
`loadMesh`/`getNodeBone`. -/
structure BoneTable where
  bones : List (String × ℕ)
  nextIndex : ℕ
deriving DecidableEq, Repr

/-- `Main.cpp` `getNodeBone` (transform bookkeeping omitted): look the
name up; if absent, register it under the current counter value and
advance the counter.  Returns the bone id and the updated table. -/
def getNodeBone (bt : BoneTable) (name : String) : ℕ × BoneTable :=
  match bt.bones.find? (fun p => p.1 = name) with
  | some p => (p.2, bt)
  | none => (bt.nextIndex, ⟨bt.bones ++ [(name, bt.nextIndex)], bt.nextIndex + 1⟩)

/-- The per-vertex post pass of `loadMesh` (`Main.cpp` lines 118–128):
if slot 0's weight is exactly `0`, bind the vertex to the synthetic bone
`<nodeName>_auto` with weights `(1,0,0,0)` (the intermediate
`wt.x = 1` store is immediately overwritten by `(1,0,0,0)`); otherwise
divide the four weights by their sum (componentwise `operator/=`).
Returns the final `(BONE_IDX, BONE_WEIGHT)` attributes and the updated
bone table. -/
def loadMeshPostVertex (name : String) (bt : BoneTable) (idx wt : float4) :
    float4 × float4 × BoneTable :=
  if wt.x = 0 then
    let r := getNodeBone bt (name ++ "_auto")
    (⟨(r.1 : ℚ), 0, 0, 0⟩, ⟨1, 0, 0, 0⟩, r.2)
  else
    let s := wt.x + wt.y + wt.z + wt.w
    (idx, ⟨wt.x / s, wt.y / s, wt.z / s, wt.w / s⟩, bt)

/-- Sum of the four components of a `float4`. -/
def sum4 (v : float4) : ℚ := v.x + v.y + v.z + v.w

/-! ## `Main.cpp`: animation emission (`loadAnimation`) -/

/-- One primitive write to the output stream (`writeByte` / `writeShort`
/ `writeInt` / `writeFloat` / `writeUTF`). -/
inductive Tok where
  | i8 (v : ℤ)
  | i16 (v : ℤ)
  | i32 (v : ℤ)
  | f32 (v : ℚ)
  | utf (s : String)
deriving DecidableEq, Repr

/-- `aiNodeAnim`: one animation channel. -/
structure NodeAnim where
  nodeName : String
  positionKeys : List VKey
  rotationKeys : List QKey
  scalingKeys : List VKey

/-- `aiAnimation`. -/
structure Animation where
  name : String
  duration : ℚ
  channels : List NodeAnim

/-- The token stream produced by `writeVectorArray` (`Main.cpp` lines
170–183): an `int32` equal to `ar.size()*4` followed by
`(time, x, y, z)` for every retained key. -/
def writeVectorArrayToks (keys : List VKey) : List Tok :=
  let ar := vectorIndices keys
  Tok.i32 (ar.length * 4) ::
    ar.flatMap (fun i =>
      let k := keys.getD i default
      [Tok.f32 k.time, Tok.f32 k.value.x, Tok.f32 k.value.y, Tok.f32 k.value.z])

/-- The token stream produced by `writeQuatArray` (`Main.cpp` lines
184–200): an `int32` equal to `ar.size()*5` followed by
`(time, w, x, y, z)` for every retained key. -/
def writeQuatArrayToks (slerp : Quat → Quat → ℚ → Quat) (keys : List QKey) :
    List Tok :=
  let ar := quatIndices slerp keys
  Tok.i32 (ar.length * 5) ::
    ar.flatMap (fun i =>
      let k := keys.getD i default
      [Tok.f32 k.time, Tok.f32 k.value.w, Tok.f32 k.value.x,
        Tok.f32 k.value.y, Tok.f32 k.value.z])

/-- The token stream of one emitted channel body (`Main.cpp` lines
209–214): the `int16` node index, then the three track blocks (the scale
block is a fixed `[0,(1,1,1)]` key when `NO_SCALE` is set). -/
def channelToks (slerp : Quat → Quat → ℚ → Quat) (noScale : Bool)
    (nodeIndex : ℤ) (n : NodeAnim) : List Tok :=
  Tok.i16 nodeIndex ::
    (writeVectorArrayToks n.positionKeys ++
      writeQuatArrayToks slerp n.rotationKeys ++
      (if noScale then
        [Tok.i32 4, Tok.f32 0, Tok.f32 1, Tok.f32 1, Tok.f32 1]
      else writeVectorArrayToks n.scalingKeys))

/-- `Main.cpp` `loadAnimation` (lines 203–216): header
(`name`, `duration`, `int32 mNumChannels`) followed by the channel
bodies; a channel whose node name is absent from `node_map` is skipped
(`continue`) but still counted by the `int32` header field. -/
def loadAnimation (slerp : Quat → Quat → ℚ → Quat) (noScale : Bool)
    (anim : Animation) (node_map : String → Option ℤ) : List Tok :=
  [Tok.utf anim.name, Tok.f32 anim.duration, Tok.i32 anim.channels.length] ++
    anim.channels.flatMap (fun n =>
      match node_map n.nodeName with
      | none => []
      | some idx => channelToks slerp noScale idx n)

/-- The value of the `int32 channelCount` header field of an emitted
animation block (the third token of the stream). -/
def channelCountField (stream : List Tok) : ℤ :=
  match stream.getD 2 (Tok.i32 0) with
  | Tok.i32 v => v
  | _ => 0

/-- The number of per-channel records in a token stream, counted by their
leading `int16` node-index token (the only `int16` writes inside an
animation block). -/
def countI16 (stream : List Tok) : ℕ :=
  stream.countP (fun t => match t with | Tok.i16 _ => true | _ => false)

/-! ## `ieee754_2008.h`: the 16-bit float codec

A 32-bit float input is modelled by its IEEE-754 value class: NaN (with
its sign bit), ±infinity, ±0, or a nonzero finite value represented
exactly as a rational (every finite `float` is a rational).  The C++
comparisons used by the encoder behave on these classes as follows:
`val < 0` is false for NaN and for −0; `val != val` detects NaN;
`val == 0` holds for both zeroes. -/

/-- A 32-bit IEEE-754 float, by value class. A `finite` value is nonzero
by convention (zeroes use the `zero` constructor so the two signed
zeroes stay distinguishable). -/
inductive F32 where
  | nan (sign : Bool)
  | inf (sign : Bool)
  | zero (sign : Bool)
  | finite (v : ℚ)
deriving DecidableEq, Repr

/-- C++ `val < 0` (IEEE: false for NaN and for −0). -/
def F32.lt0 : F32 → Bool
  | .nan _ => false
  | .inf s => s
  | .zero _ => false
  | .finite v => v < 0

/-- C++ unary negation. -/
def F32.neg : F32 → F32
  | .nan s => .nan (!s)
  | .inf s => .inf (!s)
  | .zero s => .zero (!s)
  | .finite v => .finite (-v)

/-- C++ `val != val` (NaN detection). -/
def F32.isNaN : F32 → Bool
  | .nan _ => true
  | _ => false

/-- C++ `val == FLT_INF(float)` (comparison against +∞). -/
def F32.isPosInf : F32 → Bool
  | .inf s => !s
  | _ => false

/-- C++ `val == 0` (true for both signed zeroes). -/
def F32.isZero : F32 → Bool
  | .zero _ => true
  | .finite v => v = 0
  | _ => false

/-- The rational value of a finite `F32` (only consulted on the finite
branch of the encoder). -/
def F32.mag : F32 → ℚ
  | .finite v => v
  | _ => 0

/-- `ieee754_2008.h` `ldexp`: multiply by a power of two. -/
def ldexp (q : ℚ) (k : ℤ) : ℚ := q * (2 : ℚ) ^ k

/-- `IEEE754_half`: bit-fields `mantissa:10`, `e:5`, `sign:1`.
`MANTISSA=10`, `E_MIN=-14`, `E_MAX=15`, `E_NAN=31`. -/
structure Half where
  sign : ℕ
  e : ℕ
  mantissa : ℕ
deriving DecidableEq, Repr

/-- `convertToIEEE754<IEEE754_half>(float val)` (`ieee754_2008.h` lines
38–45).  `frexp` is realised exactly over ℚ: for `q > 0` the exponent is
`Int.log 2 q + 1` and the fraction `q / 2^e ∈ [1/2, 1)`.  Bit-field
stores truncate: `e` mod 32, `mantissa` mod 1024 (the `ones` constant
`0xFFFF` truncates to `1023`); `static_cast<uint16_t>` of a nonnegative
float truncates toward zero. -/
def convertToIEEE754 (val : F32) : Half :=
  let sign : ℕ := if val.lt0 then 1 else 0
  let val := if sign = 1 then val.neg else val
  if val.isNaN then ⟨sign, 31, 65535 % 1024⟩
  else if val.isPosInf then ⟨sign, 31, 0⟩
  else if val.isZero then ⟨sign, 0, 0⟩
  else
    let q := val.mag
    let e : ℤ := Int.log 2 q + 1
    let frac : ℚ := q / (2 : ℚ) ^ e
    let exp := clamp e (-14) 15
    let v := ldexp frac (10 + (if exp ≠ -14 then 1 else 0) + e - exp)
    ⟨sign, (exp + 14).toNat % 32, (⌊v⌋).toNat % 1024⟩

/-- `convertToFloat<IEEE754_half>` (`ieee754_2008.h` lines 56–62).
`FLT_NAN(float)` is the positive quiet NaN; `e = 0` decodes a subnormal
`ldexp(mantissa, E_MIN - MANTISSA)`, otherwise
`ldexp(mantissa + 2^MANTISSA, e + E_MIN - MANTISSA - 1)`; the sign is
applied by negation (yielding −0 for the zero encoding with sign set). -/
def convertToFloat (h : Half) : F32 :=
  if h.e = 31 then
    if h.mantissa ≠ 0 then F32.nan false
    else if h.sign = 1 then F32.inf true else F32.inf false
  else
    let ret : ℚ :=
      if h.e = 0 then ldexp (h.mantissa : ℚ) (-14 - 10)
      else ldexp ((h.mantissa : ℚ) + ldexp 1 10) ((h.e : ℤ) + (-14) - 10 - 1)
    if ret = 0 then F32.zero (h.sign = 1)
    else F32.finite (if h.sign = 1 then -ret else ret)

/-! ## `Main.cpp`: scene flattening (`loadTree`) -/

/-- The part of an `aiNode` that `loadTree` consults: name, number of
attached meshes, children. -/
inductive ATree where
  | mk (name : String) (numMeshes : ℕ) (children : List ATree)

/-- Abbreviations for the fields of `ATree`. -/
def ATree.children : ATree → List ATree
  | .mk _ _ cs => cs

/-- One `nodes[cur] = make_pair(node, childIdx)` record written by
`loadTree`, together with the node's child count. -/
structure TreeEntry where
  cur : ℕ
  childIdx : ℕ
  len : ℕ
deriving DecidableEq, Repr

mutual

/-- `Main.cpp` `loadTree` (lines 148–153): reserve a contiguous child
block `[index, index+len)`, register mesh-free nodes in the name→index
map on first encounter, record `(cur, childIdx)`, then recurse into
child `i` at slot `childIdx + i`.  Returns the records in write order,
the advanced `index` counter, and the updated map.  (The `aiNode*`
return value of the C++ function is never used by its caller and is not
modelled.) -/
def loadTree : ATree → ℕ → ℕ → List (String × ℕ) →
    List TreeEntry × ℕ × List (String × ℕ)
  | .mk name numMeshes children, cur, index, nm =>
    let len := children.length
    let childIdx := index
    let index := index + len
    let nm := if numMeshes = 0 ∧ (nm.find? (fun p => p.1 = name)).isNone then
        nm ++ [(name, cur)]
      else nm
    let r := loadTreeChildren children childIdx index nm
    (⟨cur, childIdx, len⟩ :: r.1, r.2)

/-- The `for(i...) loadTree(nodes, node->mChildren[i], childIdx+i, ...)`
loop: child `i` is processed at slot `curBase + i` with the threaded
`index` counter and name map. -/
def loadTreeChildren : List ATree → ℕ → ℕ → List (String × ℕ) →
    List TreeEntry × ℕ × List (String × ℕ)
  | [], _, index, nm => ([], index, nm)
  | t :: ts, curBase, index, nm =>
    let r1 := loadTree t curBase index nm
    let r2 := loadTreeChildren ts (curBase + 1) r1.2.1 r1.2.2
    (r1.1 ++ r2.1, r2.2)

end

/-! ## `Main.cpp`: counting pass vs. emission pass -/

/-- `aiPrimitiveType_TRIANGLE`. -/
def aiPrimitiveType_TRIANGLE : ℕ := 4

/-- The part of an `aiMesh` consulted by `getVertexCount` and by the
accept-check and offset bookkeeping of `loadMesh`. -/
structure CMesh where
  primitiveTypes : ℕ
  hasPositionData : Bool
  hasFaceData : Bool
  numVertices : ℕ
  numFaces : ℕ

/-- The common accept-check of `getVertexCount` (`Main.cpp` line 40) and
`loadMesh` (line 78): skip unless the primitive type is exactly
`TRIANGLE` and the mesh has positions and faces. -/
def meshAccepted (m : CMesh) : Bool :=
  m.primitiveTypes == aiPrimitiveType_TRIANGLE && m.hasPositionData && m.hasFaceData

/-- A scene node: attached meshes (the indirection through
`scene->mMeshes[node->mMeshes[i]]` is collapsed, both passes dereference
the same mesh array in the same order) and children. -/
inductive SNode where
  | mk (meshes : List CMesh) (children : List SNode)

mutual

/-- `Main.cpp` `getVertexCount` (lines 37–43): accumulate
`vcount += mNumVertices` and `icount += mNumFaces*3` over the accepted
meshes of this node, then over the children.  (The `MeshSubset`
diagnostics list pushed alongside is not consulted by any claim.) -/
def getVertexCount : SNode → ℕ × ℕ → ℕ × ℕ
  | .mk ms cs, vi =>
    let vi := ms.foldl
      (fun (p : ℕ × ℕ) m =>
        if meshAccepted m then (p.1 + m.numVertices, p.2 + m.numFaces * 3) else p)
      vi
    getVertexCountChildren cs vi

/-- The child loop of `getVertexCount`. -/
def getVertexCountChildren : List SNode → ℕ × ℕ → ℕ × ℕ
  | [], vi => vi
  | c :: cs, vi => getVertexCountChildren cs (getVertexCount c vi)

end

/-- The slots written by one `loadMesh` call and its offset bookkeeping
(`Main.cpp` lines 76–137): on reject, nothing; on accept, vertex slots
`voff + i` for `i < mNumVertices` (the POSITION store of line 84; the
optional normal/UV/bone stores hit the same slots), index slots
`ioff + f*3 + i` for `f < mNumFaces`, `i < 3`, then
`voff += mNumVertices; ioff += nFaces*3`.  State:
`(voff, ioff, vertex slots written, index slots written)`. -/
def loadMeshWrites (st : ℕ × ℕ × List ℕ × List ℕ) (m : CMesh) :
    ℕ × ℕ × List ℕ × List ℕ :=
  if meshAccepted m then
    let voff := st.1
    let ioff := st.2.1
    (voff + m.numVertices, ioff + m.numFaces * 3,
      st.2.2.1 ++ (List.range m.numVertices).map (fun i => voff + i),
      st.2.2.2 ++ (List.range m.numFaces).flatMap
        (fun f => (List.range 3).map (fun i => ioff + f * 3 + i)))
  else st

mutual

/-- `Main.cpp` `generateMesh` (lines 139–146): run `loadMesh` on each
attached mesh, then recurse into the children (transform and bone-table
threading do not affect which slots are written). -/
def generateMesh : SNode → ℕ × ℕ × List ℕ × List ℕ → ℕ × ℕ × List ℕ × List ℕ
  | .mk ms cs, st => generateMeshChildren cs (ms.foldl loadMeshWrites st)

/-- The child loop of `generateMesh`. -/
def generateMeshChildren : List SNode → ℕ × ℕ × List ℕ × List ℕ →
    ℕ × ℕ × List ℕ × List ℕ
  | [], st => st
  | c :: cs, st => generateMeshChildren cs (generateMesh c st)

end

mutual

/-- The total vertex count of the accepted meshes of a scene subtree
(reference quantity for relating the two passes). -/
def sceneV : SNode → ℕ
  | .mk ms cs => ((ms.filter meshAccepted).map (·.numVertices)).sum + sceneVList cs

/-- `sceneV` summed over a forest. -/
def sceneVList : List SNode → ℕ
  | [] => 0
  | c :: cs => sceneV c + sceneVList cs

end

mutual

/-- The total index count of the accepted meshes of a scene subtree. -/
def sceneI : SNode → ℕ
  | .mk ms cs => ((ms.filter meshAccepted).map (·.numFaces * 3)).sum + sceneIList cs

/-- `sceneI` summed over a forest. -/
def sceneIList : List SNode → ℕ
  | [] => 0
  | c :: cs => sceneI c + sceneIList cs

end

/-! ## C2: index width selection -/

/-- C2, counterexample: the claim states the index width is 1 byte for
every vertex count below 256, in particular for 255; but
`IndexFormat::IndexFormat` compares `vertex_count < uchar_max` with
`uchar_max = 255`, so a vertex count of 255 already selects a 2-byte
index. -/
theorem C2_counterexample : IndexFormat_bpi 255 = 2 ∧ IndexFormat_bpi 255 ≠ 1 := by
  decide

/-- C2, amended: the chosen index width is 1 byte iff `v < 255`, 2 bytes
iff `255 ≤ v < 65535`, and 4 bytes iff `65535 ≤ v`; for vertex counts
{0, 255, 256, 65535, 65536} the widths are exactly {1, 2, 2, 4, 4}. -/
theorem C2_index_width (v : ℕ) :
    (IndexFormat_bpi v = 1 ↔ v < 255) ∧
    (IndexFormat_bpi v = 2 ↔ 255 ≤ v ∧ v < 65535) ∧
    (IndexFormat_bpi v = 4 ↔ 65535 ≤ v) ∧
    IndexFormat_bpi 0 = 1 ∧ IndexFormat_bpi 255 = 2 ∧ IndexFormat_bpi 256 = 2 ∧
    IndexFormat_bpi 65535 = 4 ∧ IndexFormat_bpi 65536 = 4 := by
  refine ⟨?_, ?_, ?_, by decide, by decide, by decide, by decide, by decide⟩ <;>
    (unfold IndexFormat_bpi uchar_max ushort_max; split_ifs <;> omega)

/-! ## C3: vertex layout -/

/-- C3, counterexample: the claim's scenario (one triangle mesh, no
normals, no animations) is said to emit a position-only stride of 12
bytes; but `loadScene` declares position, normal and texcoord channels
unconditionally, so the no-animation vertex format has 3 attributes and
a 32-byte stride regardless of the source data. -/
theorem C3_counterexample :
    (loadSceneFormat 0).attributes.length = 3 ∧ (loadSceneFormat 0).bpv = 32 ∧
    (loadSceneFormat 0).bpv ≠ 12 := by
  decide

/-- C3, amended: the vertex layout always contains position (`float3`),
normal (`float3`) and UV (`float2`) channels, independent of whether the
source meshes carry normal or UV data (absent data merely leaves the
channel zero-filled); bone-index/bone-weight channels (`float4` each)
are present exactly when the export has at least one animation.  The
stride is 32 bytes without animations and 64 bytes with. -/
theorem C3_vertex_layout (nAnim : ℕ) :
    loadSceneFormat nAnim =
      if 0 < nAnim then
        ⟨[⟨0, 12, 3, false⟩, ⟨12, 12, 3, false⟩, ⟨24, 8, 2, false⟩,
          ⟨32, 16, 4, false⟩, ⟨48, 16, 4, false⟩], 64⟩
      else ⟨[⟨0, 12, 3, false⟩, ⟨12, 12, 3, false⟩, ⟨24, 8, 2, false⟩], 32⟩ := by
  cases nAnim <;> rfl

/-! ## C9: half-float special values -/

/-- C9, counterexample: the claim states the encoded sign bit equals the
input's sign bit including for NaN and signed zero; but
`convertToIEEE754` derives the sign from `val < 0`, which is false for
every NaN and for −0, so a negative NaN and −0 both encode with sign
bit 0. -/
theorem C9_counterexample :
    (convertToIEEE754 (F32.nan true)).sign = 0 ∧
    convertToIEEE754 (F32.zero true) = ⟨0, 0, 0⟩ := by
  decide

/-- C9, amended: a NaN input encodes as exponent field 31 with all 10
mantissa bits set and sign bit always 0 (the input's sign is not
preserved for NaN); ±Infinity encodes as exponent 31, mantissa 0, sign
preserved; −0 encodes as +0; nonzero finite inputs preserve their sign
bit; decoding maps mantissa≠0/exponent-31 encodings to NaN and the
mantissa-0/exponent-31 encodings back to the correctly signed Infinity,
so NaN-ness and infinities round-trip (NaN sign excepted). -/
theorem C9_special_values :
    (∀ s : Bool, convertToIEEE754 (F32.nan s) = ⟨0, 31, 1023⟩) ∧
    (∀ s : Bool, convertToIEEE754 (F32.inf s) = ⟨if s then 1 else 0, 31, 0⟩) ∧
    (∀ s : Bool, convertToIEEE754 (F32.zero s) = ⟨0, 0, 0⟩) ∧
    (∀ q : ℚ, q ≠ 0 →
      (convertToIEEE754 (F32.finite q)).sign = if q < 0 then 1 else 0) ∧
    (∀ s : Bool, convertToFloat (convertToIEEE754 (F32.nan s)) = F32.nan false) ∧
    (∀ s : Bool, convertToFloat (convertToIEEE754 (F32.inf s)) = F32.inf s) ∧
    (∀ sb m : ℕ, m ≠ 0 → m < 1024 → convertToFloat ⟨sb, 31, m⟩ = F32.nan false) ∧
    convertToFloat ⟨1, 31, 0⟩ = F32.inf true ∧
    convertToFloat ⟨0, 31, 0⟩ = F32.inf false := by
  refine ⟨by decide, by decide, by decide, ?_, by decide, by decide, ?_, by decide, by decide⟩
  · intro q hq
    rcases lt_or_gt_of_ne hq with h | h
    · simp [convertToIEEE754, F32.lt0, F32.neg, F32.isNaN, F32.isPosInf, F32.isZero,
        h, hq, neg_eq_zero, not_lt_of_gt]
    · simp [convertToIEEE754, F32.lt0, F32.neg, F32.isNaN, F32.isPosInf, F32.isZero,
        h, hq, not_lt_of_gt h]
  · intro sb m hm _
    simp [convertToFloat, hm]

/-- C9, witness: the amended statement instantiated at −1 (a negative
finite input) and at the NaN encoding with mantissa 7. -/
theorem C9_special_values_witness :
    (convertToIEEE754 (F32.finite (-1))).sign = 1 ∧
    convertToFloat ⟨0, 31, 7⟩ = F32.nan false := by
  obtain ⟨-, -, -, h4, -, -, h7, -, -⟩ := C9_special_values
  constructor
  · have h := h4 (-1) (by norm_num)
    simpa using h
  · exact h7 0 7 (by decide) (by decide)

/-! ## C1: animation channel count vs. emitted channel records -/

/-- Helper: `countI16` distributes over list append. -/
theorem countI16_append (a b : List Tok) : countI16 (a ++ b) = countI16 a + countI16 b :=
  List.countP_append _ _ _

/-- Helper: a `writeVectorArray` block contains no `int16` token. -/
theorem countI16_writeVectorArrayToks (keys : List VKey) :
    countI16 (writeVectorArrayToks keys) = 0 := by
  unfold writeVectorArrayToks countI16
  simp only [List.countP_cons, List.countP_flatMap]
  refine List.sum_eq_zero ?_
  intro x hx
  simp only [List.mem_map] at hx
  obtain ⟨i, -, rfl⟩ := hx
  rfl

/-- Helper: a `writeQuatArray` block contains no `int16` token. -/
theorem countI16_writeQuatArrayToks (slerp : Quat → Quat → ℚ → Quat)
    (keys : List QKey) : countI16 (writeQuatArrayToks slerp keys) = 0 := by
  unfold writeQuatArrayToks countI16
  simp only [List.countP_cons, List.countP_flatMap]
  refine List.sum_eq_zero ?_
  intro x hx
  simp only [List.mem_map] at hx
  obtain ⟨i, -, rfl⟩ := hx
  rfl

/-- Helper: an emitted channel body contains exactly one `int16` token
(its leading node index). -/
theorem countI16_channelToks (slerp : Quat → Quat → ℚ → Quat) (noScale : Bool)
    (nodeIndex : ℤ) (n : NodeAnim) :
    countI16 (channelToks slerp noScale nodeIndex n) = 1 := by
  unfold channelToks
  have h1 := countI16_writeVectorArrayToks n.positionKeys
  have h2 := countI16_writeQuatArrayToks slerp n.rotationKeys
  have h3 := countI16_writeVectorArrayToks n.scalingKeys
  cases noScale <;>
    simp_all [countI16, List.countP_cons, List.countP_append]

/-- C1, counterexample: an animation with a single channel whose node
name is absent from the name→index map emits a `channelCount` field of 1
followed by zero per-channel records, so the field does not equal the
number of records that follow. -/
theorem C1_counterexample :
    channelCountField
        (loadAnimation (fun a _ _ => a) false ⟨"walk", 1, [⟨"missing", [], [], []⟩]⟩
          (fun _ => none)) = 1 ∧
    countI16
        (loadAnimation (fun a _ _ => a) false ⟨"walk", 1, [⟨"missing", [], [], []⟩]⟩
          (fun _ => none)) = 0 ∧
    (1 : ℤ) ≠ 0 := by
  refine ⟨rfl, rfl, by decide⟩

/-- C1, amended: channels whose target node name is absent from the
name→index map are dropped from emission, but the `int32 channelCount`
field always equals the animation's total source channel count, so it
exceeds the number of emitted per-channel records (counted by their
leading `int16` node-index token) by the number of dropped channels. -/
theorem C1_channel_count (slerp : Quat → Quat → ℚ → Quat) (noScale : Bool)
    (anim : Animation) (node_map : String → Option ℤ) :
    channelCountField (loadAnimation slerp noScale anim node_map) =
      anim.channels.length ∧
    countI16 (loadAnimation slerp noScale anim node_map) =
      (anim.channels.filter (fun n => (node_map n.nodeName).isSome)).length ∧
    (anim.channels.length : ℤ) =
      countI16 (loadAnimation slerp noScale anim node_map) +
        (anim.channels.filter (fun n => (node_map n.nodeName).isNone)).length := by
  have hfield : channelCountField (loadAnimation slerp noScale anim node_map) =
      anim.channels.length := by
    unfold loadAnimation channelCountField
    rfl
  have hcount : ∀ cs : List NodeAnim,
      countI16 (cs.flatMap (fun n =>
        match node_map n.nodeName with
        | none => []
        | some idx => channelToks slerp noScale idx n)) =
        (cs.filter (fun n => (node_map n.nodeName).isSome)).length := by
    intro cs
    induction cs with
    | nil => rfl
    | cons c cs ih =>
      rw [List.flatMap_cons, countI16_append, ih]
      cases h : node_map c.nodeName with
      | none => simp [h, countI16]
      | some idx =>
        simp only [h, countI16_channelToks, List.filter_cons]
        simp [Option.isSome]
        omega
  have hmain : countI16 (loadAnimation slerp noScale anim node_map) =
      (anim.channels.filter (fun n => (node_map n.nodeName).isSome)).length := by
    unfold loadAnimation
    rw [countI16_append, hcount]
    simp [countI16, List.countP_cons, List.countP_nil]
  have hsplit : ∀ cs : List NodeAnim,
      (cs.filter (fun n => (node_map n.nodeName).isSome)).length +
        (cs.filter (fun n => (node_map n.nodeName).isNone)).length = cs.length := by
    intro cs
    induction cs with
    | nil => rfl
    | cons c cs ih => cases h : node_map c.nodeName <;> simp [h] <;> omega
  refine ⟨hfield, hmain, ?_⟩
  rw [hmain]
  have h2 := hsplit anim.channels
  omega

/-! ## C4 / C5: keyframe compression -/

/-- Helper: every retained index after `m` iterations is below `m`. -/
theorem vectorAr_lt (keys : List VKey) : ∀ m, ∀ j ∈ vectorAr keys m, j < m := by
  intro m
  induction m with
  | zero => intro j hj; simp [vectorAr] at hj
  | succ m ih =>
    intro j hj
    by_cases h : vectorCond keys m
    · rw [vectorAr, if_pos h] at hj
      exact Nat.lt_succ_of_lt (ih j hj)
    · rw [vectorAr, if_neg h, List.mem_append] at hj
      rcases hj with hj | hj
      · exact Nat.lt_succ_of_lt (ih j hj)
      · simp at hj; omega

/-- Helper: every retained quaternion index after `m` iterations is
below `m`. -/
theorem quatAr_lt (slerp : Quat → Quat → ℚ → Quat) (keys : List QKey) :
    ∀ m, ∀ j ∈ quatAr slerp keys m, j < m := by
  intro m
  induction m with
  | zero => intro j hj; simp [quatAr] at hj
  | succ m ih =>
    intro j hj
    by_cases h : quatCond slerp keys (quatAr slerp keys m) m
    · rw [quatAr, if_pos h] at hj
      exact Nat.lt_succ_of_lt (ih j hj)
    · rw [quatAr, if_neg h, List.mem_append] at hj
      rcases hj with hj | hj
      · exact Nat.lt_succ_of_lt (ih j hj)
      · simp at hj; omega

/-- Helper: the skip condition of `writeVectorArray` never fires at
index 0 (both guards require `i > 0`). -/
theorem vectorCond_zero (keys : List VKey) : vectorCond keys 0 = false := by
  simp [vectorCond]

/-- Helper: the skip condition of `writeQuatArray` never fires at
index 0, whatever the retained state. -/
theorem quatCond_zero (slerp : Quat → Quat → ℚ → Quat) (keys : List QKey)
    (ar : List ℕ) : quatCond slerp keys ar 0 = false := by
  simp [quatCond]

/-- Helper: index 0 is retained after any positive number of iterations
of the `writeVectorArray` loop. -/
theorem vectorAr_zero_mem (keys : List VKey) :
    ∀ m, 0 < m → 0 ∈ vectorAr keys m := by
  intro m
  induction m with
  | zero => omega
  | succ m ih =>
    intro _
    rcases Nat.eq_zero_or_pos m with hm | hm
    · subst hm
      rw [vectorAr, vectorCond_zero]
      simp [vectorAr]
    · by_cases h : vectorCond keys m
      · rw [vectorAr, if_pos h]; exact ih hm
      · rw [vectorAr, if_neg h, List.mem_append]; exact Or.inl (ih hm)

/-- Helper: index 0 is retained after any positive number of iterations
of the `writeQuatArray` loop. -/
theorem quatAr_zero_mem (slerp : Quat → Quat → ℚ → Quat) (keys : List QKey) :
    ∀ m, 0 < m → 0 ∈ quatAr slerp keys m := by
  intro m
  induction m with
  | zero => omega
  | succ m ih =>
    intro _
    rcases Nat.eq_zero_or_pos m with hm | hm
    · subst hm
      rw [quatAr, quatCond_zero]
      simp [quatAr]
    · by_cases h : quatCond slerp keys (quatAr slerp keys m) m
      · rw [quatAr, if_pos h]; exact ih hm
      · rw [quatAr, if_neg h, List.mem_append]; exact Or.inl (ih hm)

/-- Helper: index `m` survives the `m+1`-st iteration of the
`writeVectorArray` loop iff its skip condition is false. -/
theorem vectorAr_last_mem (keys : List VKey) (m : ℕ) :
    m ∈ vectorAr keys (m + 1) ↔ vectorCond keys m = false := by
  by_cases h : vectorCond keys m
  · rw [vectorAr, if_pos h]
    simp only [h]
    constructor
    · intro hmem; exact absurd (vectorAr_lt keys m m hmem) (lt_irrefl m)
    · intro hh; simp at hh
  · rw [vectorAr, if_neg h]
    simp [h]

/-- Helper: index `m` survives the `m+1`-st iteration of the
`writeQuatArray` loop iff its skip condition is false. -/
theorem quatAr_last_mem (slerp : Quat → Quat → ℚ → Quat) (keys : List QKey) (m : ℕ) :
    m ∈ quatAr slerp keys (m + 1) ↔
      quatCond slerp keys (quatAr slerp keys m) m = false := by
  by_cases h : quatCond slerp keys (quatAr slerp keys m) m
  · rw [quatAr, if_pos h]
    simp only [h]
    constructor
    · intro hmem; exact absurd (quatAr_lt slerp keys m m hmem) (lt_irrefl m)
    · intro hh; simp at hh
  · rw [quatAr, if_neg h]
    simp [h]

/-- Helper: the value of the `writeVectorArray` skip condition at the
final index of a track with at least two keys. -/
theorem vectorCond_last (keys : List VKey) (h : 2 ≤ keys.length) :
    vectorCond keys (keys.length - 1) =
      equalsFuzzy3 (keys.getD (keys.length - 2) default).value
        (keys.getD (keys.length - 1) default).value EPS := by
  have h1 : ¬(0 < keys.length - 1 ∧ keys.length - 1 < keys.length - 1) := by omega
  have h2 : keys.length - 1 = keys.length - 1 ∧ 0 < keys.length - 1 := ⟨rfl, by omega⟩
  have h3 : keys.length - 1 - 1 = keys.length - 2 := by omega
  simp only [vectorCond, h1, h2, if_neg, if_pos, if_false, if_true, h3]
  simp

/-- Helper: the value of the `writeQuatArray` skip condition at the
final index of a track with at least two keys. -/
theorem quatCond_last (slerp : Quat → Quat → ℚ → Quat) (keys : List QKey)
    (ar : List ℕ) (h : 2 ≤ keys.length) :
    quatCond slerp keys ar (keys.length - 1) =
      equalsFuzzyQ (keys.getD (ar.getLastD 0) default).value
        (keys.getD (keys.length - 1) default).value EPS := by
  have h1 : ¬(0 < keys.length - 1 ∧ keys.length - 1 < keys.length - 1) := by omega
  have h2 : keys.length - 1 = keys.length - 1 ∧ 0 < keys.length - 1 := ⟨rfl, by omega⟩
  simp only [quatCond, h1, h2, if_neg, if_pos, if_false, if_true]
  simp

/-- C4, counterexample: the claim states the last sample of every
nonempty track is always retained; but for the 2-key vector track
`[(t=0, v), (t=1, v)]` `writeVectorArray` drops the final sample because
it is fuzzy-equal to its raw predecessor, retaining only index 0. -/
theorem C4_counterexample :
    vectorIndices [⟨0, ⟨1, 2, 3⟩⟩, ⟨1, ⟨1, 2, 3⟩⟩] = [0] ∧
    1 ∉ vectorIndices [⟨0, ⟨1, 2, 3⟩⟩, ⟨1, ⟨1, 2, 3⟩⟩] := by
  have h : vectorIndices [⟨0, ⟨1, 2, 3⟩⟩, ⟨1, ⟨1, 2, 3⟩⟩] = [0] := by
    norm_num [vectorIndices, vectorAr, vectorCond, equalsFuzzy3, interp3, interpQ, EPS]
  rw [h]
  simp

/-- C4, amended: for every nonempty track (vector or quaternion) the
first sample is always retained; the last sample is retained iff the
track has a single key or the final key is not within the 1e-5
per-component epsilon of its comparison neighbour — the raw predecessor
`keys[n-2]` for vector tracks, the most recently retained sample for
quaternion tracks. -/
theorem C4_first_last (keys : List VKey) (slerp : Quat → Quat → ℚ → Quat)
    (qkeys : List QKey) (hv : keys ≠ []) (hq : qkeys ≠ []) :
    0 ∈ vectorIndices keys ∧ 0 ∈ quatIndices slerp qkeys ∧
    (keys.length - 1 ∈ vectorIndices keys ↔ keys.length = 1 ∨
      equalsFuzzy3 (keys.getD (keys.length - 2) default).value
        (keys.getD (keys.length - 1) default).value EPS = false) ∧
    (qkeys.length - 1 ∈ quatIndices slerp qkeys ↔ qkeys.length = 1 ∨
      equalsFuzzyQ
        (qkeys.getD ((quatAr slerp qkeys (qkeys.length - 1)).getLastD 0) default).value
        (qkeys.getD (qkeys.length - 1) default).value EPS = false) := by
  have hvl : 0 < keys.length := List.length_pos.mpr hv
  have hql : 0 < qkeys.length := List.length_pos.mpr hq
  refine ⟨vectorAr_zero_mem keys _ hvl, quatAr_zero_mem slerp qkeys _ hql, ?_, ?_⟩
  · have hmem := vectorAr_last_mem keys (keys.length - 1)
    have hsucc : keys.length - 1 + 1 = keys.length := by omega
    rw [hsucc] at hmem
    rw [vectorIndices, hmem]
    rcases Nat.lt_or_ge keys.length 2 with h2 | h2
    · have h1 : keys.length = 1 := by omega
      simp [h1, vectorCond_zero]
    · rw [vectorCond_last keys h2]
      have hne : ¬ keys.length = 1 := by omega
      simp [hne]
  · have hmem := quatAr_last_mem slerp qkeys (qkeys.length - 1)
    have hsucc : qkeys.length - 1 + 1 = qkeys.length := by omega
    rw [hsucc] at hmem
    rw [quatIndices, hmem]
    rcases Nat.lt_or_ge qkeys.length 2 with h2 | h2
    · have h1 : qkeys.length = 1 := by omega
      simp [h1, quatCond_zero]
    · rw [quatCond_last slerp qkeys _ h2]
      have hne : ¬ qkeys.length = 1 := by omega
      simp [hne]

/-- C4, witness: the amended statement instantiated at a concrete 1-key
vector track and a concrete 2-key quaternion track, discharging the
nonemptiness hypotheses. -/
theorem C4_first_last_witness :
    0 ∈ vectorIndices [⟨0, ⟨5, 6, 7⟩⟩] ∧
    0 ∈ quatIndices (fun a _ _ => a) [⟨0, ⟨1, 0, 0, 0⟩⟩, ⟨1, ⟨0, 1, 0, 0⟩⟩] := by
  have h := C4_first_last [⟨0, ⟨5, 6, 7⟩⟩] (fun a _ _ => a)
    [⟨0, ⟨1, 0, 0, 0⟩⟩, ⟨1, ⟨0, 1, 0, 0⟩⟩] (by simp) (by simp)
  exact ⟨h.1, h.2.1⟩

/-- C5, counterexample: on the 1-D vector track
`t=0:0, t=1:9·10⁻⁶, t=2:0, t=3:−2·10⁻⁵` the code's rule (compare with
the raw predecessor) retains `{0,3}`, while the claim's rule (compare
with the most recently retained sample, same epsilon and time
weighting) retains `{0,2,3}`: the claimed neighbour selection does not
describe `writeVectorArray`. -/
theorem C5_counterexample :
    vectorIndices
        [⟨0, ⟨0, 0, 0⟩⟩, ⟨1, ⟨9/1000000, 0, 0⟩⟩, ⟨2, ⟨0, 0, 0⟩⟩,
          ⟨3, ⟨-1/50000, 0, 0⟩⟩] = [0, 3] ∧
    vectorIndicesSpec
        [⟨0, ⟨0, 0, 0⟩⟩, ⟨1, ⟨9/1000000, 0, 0⟩⟩, ⟨2, ⟨0, 0, 0⟩⟩,
          ⟨3, ⟨-1/50000, 0, 0⟩⟩] = [0, 2, 3] ∧
    vectorIndices
        [⟨0, ⟨0, 0, 0⟩⟩, ⟨1, ⟨9/1000000, 0, 0⟩⟩, ⟨2, ⟨0, 0, 0⟩⟩,
          ⟨3, ⟨-1/50000, 0, 0⟩⟩] ≠
      vectorIndicesSpec
        [⟨0, ⟨0, 0, 0⟩⟩, ⟨1, ⟨9/1000000, 0, 0⟩⟩, ⟨2, ⟨0, 0, 0⟩⟩,
          ⟨3, ⟨-1/50000, 0, 0⟩⟩] := by
  have h1 : vectorIndices
      [⟨0, ⟨0, 0, 0⟩⟩, ⟨1, ⟨9/1000000, 0, 0⟩⟩, ⟨2, ⟨0, 0, 0⟩⟩,
        ⟨3, ⟨-1/50000, 0, 0⟩⟩] = [0, 3] := by
    norm_num [vectorIndices, vectorAr, vectorCond, equalsFuzzy3, interp3, interpQ, EPS,
      abs_lt]
  have h2 : vectorIndicesSpec
      [⟨0, ⟨0, 0, 0⟩⟩, ⟨1, ⟨9/1000000, 0, 0⟩⟩, ⟨2, ⟨0, 0, 0⟩⟩,
        ⟨3, ⟨-1/50000, 0, 0⟩⟩] = [0, 2, 3] := by
    norm_num [vectorIndicesSpec, vectorArSpec, vectorCondSpec, equalsFuzzy3, interp3,
      interpQ, EPS, abs_lt]
  rw [h1, h2]
  refine ⟨rfl, rfl, by simp⟩

/-- C5, amended: the two track kinds use different comparison
neighbours.  A vector sample is tested against interpolation between its
immediate raw neighbours `keys[i-1]` and `keys[i+1]` — the selection is
a stateless filter, independent of which earlier samples were retained.
A quaternion sample is tested against interpolation from the most
recently retained sample to the raw next sample: the whole retained list
can be replaced by just the last retained index. -/
theorem C5_neighbour_rule :
    (∀ keys : List VKey,
      vectorIndices keys =
        (List.range keys.length).filter (fun i => !vectorCond keys i)) ∧
    (∀ (slerp : Quat → Quat → ℚ → Quat) (qkeys : List QKey),
      quatIndices slerp qkeys = (quatSpecA slerp qkeys qkeys.length).1 ∧
      (quatAr slerp qkeys qkeys.length).getLastD 0 =
        (quatSpecA slerp qkeys qkeys.length).2) := by
  have hvec : ∀ (keys : List VKey) (m : ℕ),
      vectorAr keys m = (List.range m).filter (fun i => !vectorCond keys i) := by
    intro keys m
    induction m with
    | zero => rfl
    | succ m ih =>
      rw [List.range_succ, List.filter_append]
      by_cases h : vectorCond keys m
      · rw [vectorAr, if_pos h, ih]
        simp [h]
      · rw [vectorAr, if_neg h, ih]
        simp [h]
  have hquat : ∀ (slerp : Quat → Quat → ℚ → Quat) (qkeys : List QKey) (m : ℕ),
      quatAr slerp qkeys m = (quatSpecA slerp qkeys m).1 ∧
      (quatAr slerp qkeys m).getLastD 0 = (quatSpecA slerp qkeys m).2 := by
    intro slerp qkeys m
    induction m with
    | zero => exact ⟨rfl, rfl⟩
    | succ m ih =>
      obtain ⟨h1, h2⟩ := ih
      have hcond : quatCond slerp qkeys (quatAr slerp qkeys m) m =
          quatCondLast slerp qkeys (quatSpecA slerp qkeys m).2 m := by
        rw [quatCond, quatCondLast, h2]
      by_cases h : quatCondLast slerp qkeys (quatSpecA slerp qkeys m).2 m
      · rw [quatAr, quatSpecA, hcond, if_pos h, if_pos h]
        exact ⟨h1, h2⟩
      · rw [quatAr, quatSpecA, hcond, if_neg h, if_neg h]
        exact ⟨by rw [h1], by rw [List.getLastD_concat]⟩
  exact ⟨fun keys => hvec keys keys.length,
    fun slerp qkeys => hquat slerp qkeys qkeys.length⟩

/-! ## C6: bone-weight slot selection -/

/-- C6, counterexample: on the contribution sequence
`(bone 1, 3/5), (bone 2, 1/2), (bone 1, 0), (bone 2, 3/10)` the code's
rule (first slot with weight 0 *or* matching bone, scanned in slot
order) ends with bone 2 occupying two slots, while the claim's rule
(prefer a slot already assigned to the bone, only else the first
zero-weight slot) keeps bone 1 in slot 0: the two rules produce
different slot states, so the claimed priority rule does not describe
`loadMesh`. -/
theorem C6_counterexample :
    applyWeights [(1, 3/5), (2, 1/2), (1, 0), (2, 3/10)] =
      (⟨2, 2, 0, 0⟩, ⟨3/10, 1/2, 0, 0⟩) ∧
    applyWeightsSpec [(1, 3/5), (2, 1/2), (1, 0), (2, 3/10)] =
      (⟨1, 2, 0, 0⟩, ⟨0, 3/10, 0, 0⟩) ∧
    applyWeights [(1, 3/5), (2, 1/2), (1, 0), (2, 3/10)] ≠
      applyWeightsSpec [(1, 3/5), (2, 1/2), (1, 0), (2, 3/10)] := by
  have h1 : applyWeights [(1, 3/5), (2, 1/2), (1, 0), (2, 3/10)] =
      (⟨2, 2, 0, 0⟩, ⟨3/10, 1/2, 0, 0⟩) := by
    norm_num [applyWeights, applyWeight, findSlot, set4]
  have h2 : applyWeightsSpec [(1, 3/5), (2, 1/2), (1, 0), (2, 3/10)] =
      (⟨1, 2, 0, 0⟩, ⟨0, 3/10, 0, 0⟩) := by
    norm_num [applyWeightsSpec, applyWeightSpec, findSlotSpec, set4]
  refine ⟨h1, h2, ?_⟩
  rw [h1, h2]
  norm_num [Prod.ext_iff, float4.mk.injEq]

/-- C6, amended: the slot used for a contribution is the *first* slot
(in order 0..3) that either has weight 0 or is already assigned to this
bone id — a single left-to-right scan of the disjunction, with no
priority for already-assigned slots; when no slot qualifies the
contribution is dropped, so a vertex receiving 5 nonzero-weight
contributions from distinct bones keeps exactly the first 4
encountered. -/
theorem C6_slot_selection :
    (∀ (idx wt : float4) (b : ℚ),
      (findSlot idx wt b < 4 →
        (get4 wt (findSlot idx wt b) = 0 ∨ get4 idx (findSlot idx wt b) = b) ∧
        ∀ c < findSlot idx wt b, ¬(get4 wt c = 0 ∨ get4 idx c = b)) ∧
      (findSlot idx wt b = 4 ↔ ∀ c < 4, ¬(get4 wt c = 0 ∨ get4 idx c = b))) ∧
    (∀ b0 b1 b2 b3 b4 w0 w1 w2 w3 w4 : ℚ,
      [b0, b1, b2, b3, b4].Pairwise (· ≠ ·) →
      w0 ≠ 0 → w1 ≠ 0 → w2 ≠ 0 → w3 ≠ 0 →
      applyWeights [(b0, w0), (b1, w1), (b2, w2), (b3, w3), (b4, w4)] =
        (⟨b0, b1, b2, b3⟩, ⟨w0, w1, w2, w3⟩)) := by
  constructor
  · intro idx wt b
    have hg0 : get4 wt 0 = wt.x ∧ get4 idx 0 = idx.x := ⟨rfl, rfl⟩
    unfold findSlot
    by_cases h1 : wt.x = 0 ∨ idx.x = b
    · rw [if_pos h1]
      refine ⟨fun _ => ⟨by simpa [get4] using h1, by omega⟩, ?_⟩
      constructor
      · omega
      · intro hall
        exact absurd (by simpa [get4] using h1) (hall 0 (by omega))
    · rw [if_neg h1]
      by_cases h2 : wt.y = 0 ∨ idx.y = b
      · rw [if_pos h2]
        refine ⟨fun _ => ⟨by simpa [get4] using h2, ?_⟩, ?_⟩
        · intro c hc
          interval_cases c
          · simpa [get4] using h1
        · constructor
          · omega
          · intro hall
            exact absurd (by simpa [get4] using h2) (hall 1 (by omega))
      · rw [if_neg h2]
        by_cases h3 : wt.z = 0 ∨ idx.z = b
        · rw [if_pos h3]
          refine ⟨fun _ => ⟨by simpa [get4] using h3, ?_⟩, ?_⟩
          · intro c hc
            interval_cases c
            · simpa [get4] using h1
            · simpa [get4] using h2
          · constructor
            · omega
            · intro hall
              exact absurd (by simpa [get4] using h3) (hall 2 (by omega))
        · rw [if_neg h3]
          by_cases h4 : wt.w = 0 ∨ idx.w = b
          · rw [if_pos h4]
            refine ⟨fun _ => ⟨by simpa [get4] using h4, ?_⟩, ?_⟩
            · intro c hc
              interval_cases c
              · simpa [get4] using h1
              · simpa [get4] using h2
              · simpa [get4] using h3
            · constructor
              · omega
              · intro hall
                exact absurd (by simpa [get4] using h4) (hall 3 (by omega))
          · rw [if_neg h4]
            refine ⟨fun h => absurd h (by omega), ?_, ?_⟩
            · intro _ c hc
              interval_cases c
              · simpa [get4] using h1
              · simpa [get4] using h2
              · simpa [get4] using h3
              · simpa [get4] using h4
            · intro _
              rfl
  · intro b0 b1 b2 b3 b4 w0 w1 w2 w3 w4 h hw0 hw1 hw2 hw3
    simp only [List.pairwise_cons, List.mem_cons, List.mem_singleton,
      List.not_mem_nil, List.Pairwise.nil, forall_eq_or_imp, forall_eq] at h
    obtain ⟨⟨h01, h02, h03, h04⟩, ⟨h12, h13, h14⟩, ⟨h23, h24⟩, h34, -⟩ := h
    simp [applyWeights, applyWeight, findSlot, set4,
      hw0, hw1, hw2, hw3, h01, h02, h03, h04, h12, h13, h14, h23, h24, h34]

/-- C6, witness: the amended statement instantiated at the slot state
`idx = (7,0,0,0), wt = (1/2,0,0,0)` with bone 9, and at the 5-bone
scenario with bones 1..5, all weights 1/5. -/
theorem C6_slot_selection_witness :
    (findSlot ⟨7, 0, 0, 0⟩ ⟨1/2, 0, 0, 0⟩ 9 < 4 →
      (get4 ⟨1/2, 0, 0, 0⟩ (findSlot ⟨7, 0, 0, 0⟩ ⟨1/2, 0, 0, 0⟩ 9) = 0 ∨
        get4 ⟨7, 0, 0, 0⟩ (findSlot ⟨7, 0, 0, 0⟩ ⟨1/2, 0, 0, 0⟩ 9) = 9) ∧
      ∀ c < findSlot ⟨7, 0, 0, 0⟩ ⟨1/2, 0, 0, 0⟩ 9,
        ¬(get4 ⟨1/2, 0, 0, 0⟩ c = 0 ∨ get4 ⟨7, 0, 0, 0⟩ c = 9)) ∧
    applyWeights [(1, 1/5), (2, 1/5), (3, 1/5), (4, 1/5), (5, 1/5)] =
      (⟨1, 2, 3, 4⟩, ⟨1/5, 1/5, 1/5, 1/5⟩) := by
  refine ⟨(C6_slot_selection.1 ⟨7, 0, 0, 0⟩ ⟨1/2, 0, 0, 0⟩ 9).1, ?_⟩
  refine C6_slot_selection.2 1 2 3 4 5 (1/5) (1/5) (1/5) (1/5) (1/5) ?_ ?_ ?_ ?_ ?_ <;>
    norm_num

/-! ## C7: per-vertex post pass -/

/-- C7: in the post pass of a skinned mesh, a vertex whose slot-0 weight
is exactly 0 is bound to the single synthetic bone `<nodeName>_auto`
with weights `(1,0,0,0)` (the bone id being the one registered for that
name in the resulting bone table), and every other vertex keeps its bone
indices and has its four weights divided by their sum, which therefore
sum to 1 whenever the weight sum is nonzero. -/
theorem C7_post_pass (name : String) (bt : BoneTable) (idx wt : float4) :
    (wt.x = 0 → ∃ b : ℕ,
      ((loadMeshPostVertex name bt idx wt).2.2).bones.find?
          (fun p => p.1 = name ++ "_auto") = some (name ++ "_auto", b) ∧
      (loadMeshPostVertex name bt idx wt).1 = ⟨(b : ℚ), 0, 0, 0⟩ ∧
      (loadMeshPostVertex name bt idx wt).2.1 = ⟨1, 0, 0, 0⟩) ∧
    (wt.x ≠ 0 →
      (loadMeshPostVertex name bt idx wt).1 = idx ∧
      (loadMeshPostVertex name bt idx wt).2.1 =
        ⟨wt.x / sum4 wt, wt.y / sum4 wt, wt.z / sum4 wt, wt.w / sum4 wt⟩ ∧
      (sum4 wt ≠ 0 → sum4 (loadMeshPostVertex name bt idx wt).2.1 = 1) ∧
      (loadMeshPostVertex name bt idx wt).2.2 = bt) := by
  constructor
  · intro h0
    unfold loadMeshPostVertex getNodeBone
    rw [if_pos h0]
    cases hf : bt.bones.find? (fun p => p.1 = name ++ "_auto") with
    | none =>
      refine ⟨bt.nextIndex, ?_, rfl, rfl⟩
      simp only [List.find?_append, hf, Option.none_orElse]
      simp [List.find?]
    | some p =>
      have hp : p.1 = name ++ "_auto" := by
        have := List.find?_some hf
        simpa using this
      refine ⟨p.2, ?_, rfl, rfl⟩
      rw [hf]
      exact congrArg some (by rw [← hp])
  · intro hne
    unfold loadMeshPostVertex
    rw [if_neg hne]
    refine ⟨rfl, rfl, ?_, rfl⟩
    intro hs
    show wt.x / sum4 wt + wt.y / sum4 wt + wt.z / sum4 wt + wt.w / sum4 wt = 1
    rw [div_add_div_same, div_add_div_same, div_add_div_same]
    exact div_self hs

/-- C7, witness: the post pass at a vertex with zero slot-0 weight on an
empty bone table, and at a vertex with weights `(1/2, 1/4, 1/4, 0)`. -/
theorem C7_post_pass_witness :
    (∃ b : ℕ,
      ((loadMeshPostVertex "Cube" ⟨[], 0⟩ ⟨0, 0, 0, 0⟩ ⟨0, 0, 0, 0⟩).2.2).bones.find?
          (fun p => p.1 = "Cube" ++ "_auto") = some ("Cube" ++ "_auto", b) ∧
      (loadMeshPostVertex "Cube" ⟨[], 0⟩ ⟨0, 0, 0, 0⟩ ⟨0, 0, 0, 0⟩).1 = ⟨(b : ℚ), 0, 0, 0⟩ ∧
      (loadMeshPostVertex "Cube" ⟨[], 0⟩ ⟨0, 0, 0, 0⟩ ⟨0, 0, 0, 0⟩).2.1 = ⟨1, 0, 0, 0⟩) ∧
    sum4 (loadMeshPostVertex "Cube" ⟨[], 0⟩ ⟨5, 0, 0, 0⟩ ⟨1/2, 1/4, 1/4, 0⟩).2.1 = 1 := by
  constructor
  · exact (C7_post_pass "Cube" ⟨[], 0⟩ ⟨0, 0, 0, 0⟩ ⟨0, 0, 0, 0⟩).1 rfl
  · refine ((C7_post_pass "Cube" ⟨[], 0⟩ ⟨5, 0, 0, 0⟩ ⟨1/2, 1/4, 1/4, 0⟩).2
      (by norm_num)).2.2.1 ?_
    show (1/2 : ℚ) + 1/4 + 1/4 + 0 ≠ 0
    norm_num

/-! ## C8: flattening invariants -/

mutual

/-- Helper (mutual with `loadTreeChildren_inv`): invariants of one
`loadTree` call — the index counter never decreases; every recorded
child-block start lies at or beyond the incoming counter, and strictly
below the final counter for nodes with children; if the node's own slot
is below the incoming counter then every recorded slot is strictly below
its child-block start; and the child-block starts of nodes with children
are strictly increasing in write order. -/
theorem loadTree_inv (t : ATree) (cur index : ℕ) (nm : List (String × ℕ)) :
    index ≤ (loadTree t cur index nm).2.1 ∧
    (∀ e ∈ (loadTree t cur index nm).1,
      index ≤ e.childIdx ∧ (0 < e.len → e.childIdx < (loadTree t cur index nm).2.1)) ∧
    (cur < index → ∀ e ∈ (loadTree t cur index nm).1, e.cur < e.childIdx) ∧
    ((((loadTree t cur index nm).1.filter (fun e => 0 < e.len)).map
      TreeEntry.childIdx).Pairwise (· < ·)) := by
  cases t with
  | mk name numMeshes children =>
    simp only [loadTree]
    have ih := loadTreeChildren_inv children index (index + children.length)
      (if numMeshes = 0 ∧
          ((nm.find? (fun p => p.1 = name)).isNone) then nm ++ [(name, cur)] else nm)
    obtain ⟨ih1, ih2, ih3, ih4⟩ := ih
    have hle : index ≤ index + children.length := by omega
    refine ⟨le_trans hle ih1, ?_, ?_, ?_⟩
    · intro e he
      rcases List.mem_cons.mp he with rfl | he
      · refine ⟨le_refl _, fun hlen => ?_⟩
        have hlen' : 0 < children.length := hlen
        show index < _
        exact lt_of_lt_of_le (by omega) ih1
      · obtain ⟨hb, hu⟩ := ih2 e he
        exact ⟨by omega, hu⟩
    · intro hcur e he
      rcases List.mem_cons.mp he with rfl | he
      · exact hcur
      · exact ih3 (by omega) e he
    · by_cases hlen : 0 < children.length
      · rw [List.filter_cons_of_pos (by simpa using hlen), List.map_cons]
        refine List.pairwise_cons.mpr ⟨?_, ih4⟩
        intro b hb
        simp only [List.mem_map] at hb
        obtain ⟨e, he, rfl⟩ := hb
        have hbnd := (ih2 e (List.mem_filter.mp he).1).1
        show index < e.childIdx
        omega
      · rw [List.filter_cons_of_neg (by simpa using hlen)]
        exact ih4

/-- Helper (mutual with `loadTree_inv`): the same invariants for the
child loop, where the slots `curBase, curBase+1, …` of the children are
all below the incoming counter. -/
theorem loadTreeChildren_inv (ts : List ATree) (curBase index : ℕ)
    (nm : List (String × ℕ)) :
    index ≤ (loadTreeChildren ts curBase index nm).2.1 ∧
    (∀ e ∈ (loadTreeChildren ts curBase index nm).1,
      index ≤ e.childIdx ∧
        (0 < e.len → e.childIdx < (loadTreeChildren ts curBase index nm).2.1)) ∧
    (curBase + ts.length ≤ index →
      ∀ e ∈ (loadTreeChildren ts curBase index nm).1, e.cur < e.childIdx) ∧
    ((((loadTreeChildren ts curBase index nm).1.filter (fun e => 0 < e.len)).map
      TreeEntry.childIdx).Pairwise (· < ·)) := by
  cases ts with
  | nil => simp [loadTreeChildren]
  | cons t ts =>
    simp only [loadTreeChildren]
    obtain ⟨ih1a, ih1b, ih1c, ih1d⟩ := loadTree_inv t curBase index nm
    obtain ⟨ih2a, ih2b, ih2c, ih2d⟩ := loadTreeChildren_inv ts (curBase + 1)
      (loadTree t curBase index nm).2.1 (loadTree t curBase index nm).2.2
    refine ⟨by omega, ?_, ?_, ?_⟩
    · intro e he
      rcases List.mem_append.mp he with he | he
      · obtain ⟨hb, hu⟩ := ih1b e he
        exact ⟨hb, fun hl => lt_of_lt_of_le (hu hl) ih2a⟩
      · obtain ⟨hb, hu⟩ := ih2b e he
        exact ⟨by omega, hu⟩
    · intro hcur e he
      simp only [List.length_cons] at hcur
      rcases List.mem_append.mp he with he | he
      · exact ih1c (by omega) e he
      · exact ih2c (by omega) e he
    · rw [List.filter_append, List.map_append]
      rw [List.pairwise_append]
      refine ⟨ih1d, ih2d, ?_⟩
      intro a ha b hb
      simp only [List.mem_map] at ha hb
      obtain ⟨e1, he1, rfl⟩ := ha
      obtain ⟨e2, he2, rfl⟩ := hb
      have h1 := (ih1b e1 (List.mem_filter.mp he1).1).2
      have h2 := (ih2b e2 (List.mem_filter.mp he2).1).1
      have hl1 : 0 < e1.len := by
        have := (List.mem_filter.mp he1).2
        simpa using this
      exact lt_of_lt_of_le (h1 hl1) h2

end

/-- C8, counterexample: flattening a root with two leaf children records
the entries `(0,1,2), (1,3,0), (2,3,0)` — both leaves record the same
child-block start 3, so the recorded child-block starts are not pairwise
distinct. -/
theorem C8_counterexample :
    (loadTree (.mk "r" 1 [.mk "a" 1 [], .mk "b" 1 []]) 0 1 []).1 =
      [⟨0, 1, 2⟩, ⟨1, 3, 0⟩, ⟨2, 3, 0⟩] ∧
    ¬((loadTree (.mk "r" 1 [.mk "a" 1 [], .mk "b" 1 []]) 0 1 []).1.map
        TreeEntry.childIdx).Nodup := by
  have h : (loadTree (.mk "r" 1 [.mk "a" 1 [], .mk "b" 1 []]) 0 1 []).1 =
      [⟨0, 1, 2⟩, ⟨1, 3, 0⟩, ⟨2, 3, 0⟩] := by
    simp [loadTree, loadTreeChildren]
  rw [h]
  refine ⟨rfl, by decide⟩

/-- C8, amended: for every input tree flattened from the root call
(`cur = 0`, `index = 1`), the recorded child-block start of each node is
strictly greater than the node's own array index; the child-block starts
of the nodes that *have* children are strictly increasing in write order
and hence pairwise distinct, but childless nodes all record the
then-current next-free index, which can coincide (so distinctness does
not extend to them). -/
theorem C8_flattening (t : ATree) :
    (∀ e ∈ (loadTree t 0 1 []).1, e.cur < e.childIdx) ∧
    ((((loadTree t 0 1 []).1.filter (fun e => 0 < e.len)).map
      TreeEntry.childIdx).Pairwise (· < ·)) ∧
    ((((loadTree t 0 1 []).1.filter (fun e => 0 < e.len)).map
      TreeEntry.childIdx).Nodup) := by
  obtain ⟨-, -, h3, h4⟩ := loadTree_inv t 0 1 []
  exact ⟨h3 (by omega), h4, h4.imp (fun h => Nat.ne_of_lt h)⟩

/-! ## C10: counting pass vs. emission pass -/

/-- Helper: the mesh loop of `getVertexCount` adds the accepted meshes'
vertex and index totals to the running counters. -/
theorem meshFold_count (ms : List CMesh) (vc ic : ℕ) :
    ms.foldl
        (fun (p : ℕ × ℕ) m =>
          if meshAccepted m then (p.1 + m.numVertices, p.2 + m.numFaces * 3) else p)
        (vc, ic) =
      (vc + ((ms.filter meshAccepted).map (·.numVertices)).sum,
        ic + ((ms.filter meshAccepted).map (·.numFaces * 3)).sum) := by
  induction ms generalizing vc ic with
  | nil => simp
  | cons m ms ih =>
    by_cases h : meshAccepted m
    · simp only [List.foldl_cons, h, if_true, List.filter_cons_of_pos h, List.map_cons,
        List.sum_cons, ih]
      refine Prod.ext ?_ ?_ <;> simp <;> omega
    · simp only [List.foldl_cons, h, if_false, List.filter_cons_of_neg h, ih,
        Bool.false_eq_true]

/-- Helper: the triple-nested index writes `ioff + f*3 + i` of one mesh
enumerate exactly the contiguous range of `3·nF` slots from `ioff`. -/
theorem flatMap_triple (ioff nF : ℕ) :
    (List.range nF).flatMap (fun f => (List.range 3).map (fun i => ioff + f * 3 + i)) =
      (List.range (nF * 3)).map (fun j => ioff + j) := by
  induction nF with
  | zero => rfl
  | succ n ih =>
    rw [List.range_succ, List.flatMap_append, ih]
    have h3 : (n + 1) * 3 = n * 3 + 3 := by ring
    rw [h3, List.range_add, List.map_append, List.map_map]
    congr 1

/-- Helper: appending the shifted range `[off+a, off+a+b)` after the
range `[off, off+a)` yields the contiguous range `[off, off+a+b)`. -/
theorem append_range_shift (off a b : ℕ) (l : List ℕ) :
    (l ++ (List.range a).map (fun i => off + i)) ++
        (List.range b).map (fun i => off + a + i) =
      l ++ (List.range (a + b)).map (fun i => off + i) := by
  rw [List.range_add, List.map_append, List.map_map, List.append_assoc]
  have hf : ((fun i => off + i) ∘ fun i => a + i) = (fun i => off + a + i) := by
    funext i
    simp [Function.comp]
    omega
  rw [hf]

/-- Helper: the mesh loop of `generateMesh` advances the offsets by the
accepted totals and appends exactly the corresponding contiguous slot
ranges to the write lists. -/
theorem meshFold_writes (ms : List CMesh) (voff ioff : ℕ) (vw iw : List ℕ) :
    ms.foldl loadMeshWrites (voff, ioff, vw, iw) =
      (voff + ((ms.filter meshAccepted).map (·.numVertices)).sum,
        ioff + ((ms.filter meshAccepted).map (·.numFaces * 3)).sum,
        vw ++ (List.range (((ms.filter meshAccepted).map (·.numVertices)).sum)).map
          (fun i => voff + i),
        iw ++ (List.range (((ms.filter meshAccepted).map (·.numFaces * 3)).sum)).map
          (fun i => ioff + i)) := by
  induction ms generalizing voff ioff vw iw with
  | nil => simp
  | cons m ms ih =>
    by_cases h : meshAccepted m
    · rw [List.foldl_cons]
      rw [show loadMeshWrites (voff, ioff, vw, iw) m =
          (voff + m.numVertices, ioff + m.numFaces * 3,
            vw ++ (List.range m.numVertices).map (fun i => voff + i),
            iw ++ (List.range (m.numFaces * 3)).map (fun i => ioff + i)) by
        unfold loadMeshWrites
        rw [if_pos h]
        simp [flatMap_triple]]
      rw [ih]
      rw [List.filter_cons_of_pos h]
      simp only [List.map_cons, List.sum_cons]
      refine Prod.ext ?_ (Prod.ext ?_ (Prod.ext ?_ ?_)) <;>
        simp only [append_range_shift]
      · omega
      · omega
    · rw [List.foldl_cons]
      rw [show loadMeshWrites (voff, ioff, vw, iw) m = (voff, ioff, vw, iw) by
        unfold loadMeshWrites
        rw [if_neg (by simpa using h)]]
      rw [ih, List.filter_cons_of_neg h]

mutual

/-- Helper (mutual): `getVertexCount` adds the subtree totals to the
running counters. -/
theorem getVertexCount_shift (n : SNode) (vc ic : ℕ) :
    getVertexCount n (vc, ic) = (vc + sceneV n, ic + sceneI n) := by
  cases n with
  | mk ms cs =>
    simp only [getVertexCount]
    rw [meshFold_count, getVertexCountChildren_shift cs]
    simp only [sceneV, sceneI]
    refine Prod.ext ?_ ?_ <;> simp <;> omega

/-- Helper (mutual): the child loop of `getVertexCount` adds the forest
totals to the running counters. -/
theorem getVertexCountChildren_shift (cs : List SNode) (vc ic : ℕ) :
    getVertexCountChildren cs (vc, ic) = (vc + sceneVList cs, ic + sceneIList cs) := by
  cases cs with
  | nil => simp [getVertexCountChildren, sceneVList, sceneIList]
  | cons c cs =>
    simp only [getVertexCountChildren]
    rw [getVertexCount_shift c, getVertexCountChildren_shift cs]
    simp only [sceneVList, sceneIList]
    refine Prod.ext ?_ ?_ <;> simp <;> omega

end

mutual

/-- Helper (mutual): `generateMesh` advances the offsets by the subtree
totals and appends exactly the contiguous slot ranges starting at the
incoming offsets to the write lists. -/
theorem generateMesh_shift (n : SNode) (voff ioff : ℕ) (vw iw : List ℕ) :
    generateMesh n (voff, ioff, vw, iw) =
      (voff + sceneV n, ioff + sceneI n,
        vw ++ (List.range (sceneV n)).map (fun i => voff + i),
        iw ++ (List.range (sceneI n)).map (fun i => ioff + i)) := by
  cases n with
  | mk ms cs =>
    simp only [generateMesh]
    rw [meshFold_writes, generateMeshChildren_shift cs]
    simp only [sceneV, sceneI]
    refine Prod.ext ?_ (Prod.ext ?_ (Prod.ext ?_ ?_)) <;>
      simp only [append_range_shift]
    · omega
    · omega

/-- Helper (mutual): the child loop of `generateMesh`. -/
theorem generateMeshChildren_shift (cs : List SNode) (voff ioff : ℕ)
    (vw iw : List ℕ) :
    generateMeshChildren cs (voff, ioff, vw, iw) =
      (voff + sceneVList cs, ioff + sceneIList cs,
        vw ++ (List.range (sceneVList cs)).map (fun i => voff + i),
        iw ++ (List.range (sceneIList cs)).map (fun i => ioff + i)) := by
  cases cs with
  | nil => simp [generateMeshChildren, sceneVList, sceneIList]
  | cons c cs =>
    simp only [generateMeshChildren]
    rw [generateMesh_shift c, generateMeshChildren_shift cs]
    simp only [sceneVList, sceneIList]
    refine Prod.ext ?_ (Prod.ext ?_ (Prod.ext ?_ ?_)) <;>
      simp only [append_range_shift]
    · omega
    · omega

end

/-- C10: the counting pass (`getVertexCount`) and the emission pass
(`generateMesh`/`loadMesh`) skip meshes by the same accept-check
(`meshAccepted`, used verbatim by both embeddings), so starting from
zero offsets the emission pass ends with its running vertex and index
offsets equal to the counting pass's totals, and the vertex and index
slots it writes are exactly `0, 1, …, total−1` in order — every
allocated slot is written and no write goes past the allocated size. -/
theorem C10_pass_agreement (root : SNode) :
    getVertexCount root (0, 0) = (sceneV root, sceneI root) ∧
    generateMesh root (0, 0, [], []) =
      (sceneV root, sceneI root, List.range (sceneV root), List.range (sceneI root)) ∧
    (generateMesh root (0, 0, [], [])).1 = (getVertexCount root (0, 0)).1 ∧
    (generateMesh root (0, 0, [], [])).2.1 = (getVertexCount root (0, 0)).2 := by
  have h1 := getVertexCount_shift root 0 0
  have h2 := generateMesh_shift root 0 0 [] []
  simp only [Nat.zero_add, List.nil_append, List.map_id'] at h1 h2
  refine ⟨h1, h2, ?_, ?_⟩ <;> rw [h1, h2]

end CreateWOBJ
